import Mathlib

/-!
Shallow embedding of the hybrid retrieval pipeline of the Library_Assistant
repository (src/core/library_assistant_toolbox/book_search_tool.py,
src/core/pdf_reader_toolbox/reference_search.py,
src/core/library_assistant_toolbox/pdf_reader_tool.py), together with the
LangChain combinators the code instantiates (EnsembleRetriever's weighted
reciprocal rank fusion, ContextualCompressionRetriever, CrossEncoderReranker),
and proofs about the spec's claims.

Modelling conventions: Python `list.sort`/`sorted` (stable) is embedded as a
stable insertion sort by the same key; float RRF scores are embedded as exact
rationals (no claim here depends on float rounding); external backends
(SQL database, Chroma store, cross-encoder scoring model) are oracle function
parameters returning `Except`; exceptions are `Except.error`.
-/

namespace LibraryAssistant

/-! ### Generic stable sorting (model of Python's stable `sorted`/`list.sort`)

`stableInsertBy lt a l` inserts `a` after every element `x` of `l` with
`lt x a` (i.e. `x` strictly precedes `a`); elements comparing equal to `a`
keep their original position before `a`, which is exactly Python's stability
guarantee when the sorted list is built by folding insertions from the right.
-/

def stableInsertBy (lt : α → α → Bool) (a : α) : List α → List α
  | [] => [a]
  | x :: xs => if lt x a then x :: stableInsertBy lt a xs else a :: x :: xs

def stableSortBy (lt : α → α → Bool) (l : List α) : List α :=
  l.foldr (stableInsertBy lt) []

theorem stableInsertBy_perm (lt : α → α → Bool) (a : α) (l : List α) :
    List.Perm (stableInsertBy lt a l) (a :: l) := by
  induction l with
  | nil => simp [stableInsertBy]
  | cons x xs ih =>
    simp only [stableInsertBy]
    by_cases h : lt x a
    · simp only [h, if_pos]
      exact List.Perm.trans (List.Perm.cons x ih) (List.Perm.swap a x xs)
    · simp [h]

theorem stableSortBy_perm (lt : α → α → Bool) (l : List α) :
    List.Perm (stableSortBy lt l) l := by
  induction l with
  | nil => simp [stableSortBy]
  | cons x xs ih =>
    exact List.Perm.trans (stableInsertBy_perm lt x (stableSortBy lt xs))
      (List.Perm.cons x ih)

theorem mem_stableSortBy {lt : α → α → Bool} {l : List α} {a : α} :
    a ∈ stableSortBy lt l ↔ a ∈ l :=
  (stableSortBy_perm lt l).mem_iff

theorem length_stableSortBy (lt : α → α → Bool) (l : List α) :
    (stableSortBy lt l).length = l.length :=
  (stableSortBy_perm lt l).length_eq

theorem stableInsertBy_pairwise {lt : α → α → Bool}
    (hco : ∀ x y z, lt x z = true → lt x y = true ∨ lt y z = true)
    (hasym : ∀ x y, lt x y = true → lt y x = false)
    (a : α) {l : List α} (h : l.Pairwise fun x y => lt y x = false) :
    (stableInsertBy lt a l).Pairwise fun x y => lt y x = false := by
  induction l with
  | nil => simp [stableInsertBy]
  | cons x xs ih =>
    rcases List.pairwise_cons.mp h with ⟨hx, hxs⟩
    simp only [stableInsertBy]
    by_cases hlt : lt x a = true
    · rw [if_pos hlt]
      refine List.pairwise_cons.mpr ⟨?_, ih hxs⟩
      intro y hy
      have hy2 := (stableInsertBy_perm lt a xs).mem_iff.mp hy
      rw [List.mem_cons] at hy2
      rcases hy2 with hy2 | hy2
      · rw [hy2]; exact hasym x a hlt
      · exact hx y hy2
    · rw [if_neg hlt]
      refine List.pairwise_cons.mpr ⟨?_, h⟩
      intro y hy
      rw [List.mem_cons] at hy
      rcases hy with hy | hy
      · rw [hy]
        cases hb : lt x a with
        | false => rfl
        | true => exact absurd hb hlt
      · cases hb : lt y a with
        | false => rfl
        | true =>
          rcases hco y x a hb with hc | hc
          · rw [hx y hy] at hc; exact absurd hc (by decide)
          · exact absurd hc hlt

theorem stableSortBy_pairwise {lt : α → α → Bool}
    (hco : ∀ x y z, lt x z = true → lt x y = true ∨ lt y z = true)
    (hasym : ∀ x y, lt x y = true → lt y x = false)
    (l : List α) :
    (stableSortBy lt l).Pairwise fun x y => lt y x = false := by
  induction l with
  | nil => simp [stableSortBy]
  | cons x xs ih => exact stableInsertBy_pairwise hco hasym x ih

/-! ### Sorted duplicate-free insertion (model of Python `sorted(set)`)

The reference-search code collects pages in a `set()` and iterates
`sorted(pages_to_fetch)`; we model the resulting iteration order directly as
a strictly sorted duplicate-free list of page numbers.
-/

def insNoDup (p : Nat) : List Nat → List Nat
  | [] => [p]
  | q :: qs =>
    if p = q then q :: qs
    else if q < p then q :: insNoDup p qs
    else p :: q :: qs

theorem mem_insNoDup {p a : Nat} {l : List Nat} :
    a ∈ insNoDup p l ↔ a = p ∨ a ∈ l := by
  induction l with
  | nil => simp [insNoDup]
  | cons q qs ih =>
    simp only [insNoDup]
    by_cases h1 : p = q
    · rw [if_pos h1]
      subst h1
      simp only [List.mem_cons]
      tauto
    · rw [if_neg h1]
      by_cases h2 : q < p
      · rw [if_pos h2]
        simp only [List.mem_cons, ih]
        tauto
      · rw [if_neg h2]
        simp [List.mem_cons]

theorem insNoDup_sorted {p : Nat} {l : List Nat}
    (h : l.Sorted (· < ·)) : (insNoDup p l).Sorted (· < ·) := by
  induction l with
  | nil => simp [insNoDup]
  | cons q qs ih =>
    rcases List.pairwise_cons.mp h with ⟨hq, hqs⟩
    simp only [insNoDup]
    by_cases h1 : p = q
    · rw [if_pos h1]; exact h
    · rw [if_neg h1]
      by_cases h2 : q < p
      · rw [if_pos h2]
        refine List.pairwise_cons.mpr ⟨?_, ih hqs⟩
        intro a ha
        rcases mem_insNoDup.mp ha with ha | ha
        · subst ha; exact h2
        · exact hq a ha
      · rw [if_neg h2]
        refine List.pairwise_cons.mpr ⟨?_, h⟩
        intro a ha
        rw [List.mem_cons] at ha
        rcases ha with ha | ha
        · subst ha; omega
        · have := hq a ha; omega

theorem eq_of_sorted_lt_of_mem_iff :
    ∀ {l l' : List Nat}, l.Sorted (· < ·) → l'.Sorted (· < ·) →
      (∀ a, a ∈ l ↔ a ∈ l') → l = l' := by
  intro l
  induction l with
  | nil =>
    intro l' _ _ hmem
    cases l' with
    | nil => rfl
    | cons b bs => exact absurd ((hmem b).mpr (List.mem_cons_self b bs)) (by simp)
  | cons a as ih =>
    intro l' hs hs' hmem
    cases l' with
    | nil => exact absurd ((hmem a).mp (List.mem_cons_self a as)) (by simp)
    | cons b bs =>
      rcases List.pairwise_cons.mp hs with ⟨ha, has⟩
      rcases List.pairwise_cons.mp hs' with ⟨hb, hbs⟩
      have hab : a = b := by
        have h1 := (hmem a).mp (List.mem_cons_self a as)
        have h2 := (hmem b).mpr (List.mem_cons_self b bs)
        rw [List.mem_cons] at h1 h2
        rcases h1 with h1 | h1
        · exact h1
        · rcases h2 with h2 | h2
          · exact h2.symm
          · have := ha b h2
            have := hb a h1
            omega
      subst hab
      have htail : ∀ x, x ∈ as ↔ x ∈ bs := by
        intro x
        constructor
        · intro hx
          have hm := (hmem x).mp (List.mem_cons_of_mem a hx)
          rw [List.mem_cons] at hm
          rcases hm with hm | hm
          · exfalso; have := ha x hx; omega
          · exact hm
        · intro hx
          have hm := (hmem x).mpr (List.mem_cons_of_mem a hx)
          rw [List.mem_cons] at hm
          rcases hm with hm | hm
          · exfalso; have := hb x hx; omega
          · exact hm
      rw [ih has hbs htail]

/-! ### Substring search (model of Python's `in` on strings) -/

def charsStarts : List Char → List Char → Bool
  | [], _ => true
  | _ :: _, [] => false
  | n :: ns, h :: hs => n == h && charsStarts ns hs

def charsHas : List Char → List Char → Bool
  | [], needle => needle.isEmpty
  | h :: hs, needle => charsStarts needle (h :: hs) || charsHas hs needle

def strHas (hay needle : String) : Bool :=
  charsHas hay.data needle.data

def lowerStr (s : String) : String :=
  String.mk (s.data.map Char.toLower)

/-- Python `str.strip()`: remove leading and trailing whitespace. -/
def pyStrip (s : String) : String :=
  String.mk
    (((s.data.dropWhile Char.isWhitespace).reverse.dropWhile
      Char.isWhitespace).reverse)

/-- Python `str[:n]`: the first `n` code points. -/
def pyTake (n : Nat) (s : String) : String :=
  String.mk (s.data.take n)

/-- Python `str.startswith(pre)`. -/
def pyStarts (s pre : String) : Bool :=
  charsStarts pre.data s.data

/-- Python string comparison: lexicographic on code points. -/
def charsLt : List Char → List Char → Bool
  | [], [] => false
  | [], _ :: _ => true
  | _ :: _, [] => false
  | a :: as, b :: bs => decide (a < b) || (a == b && charsLt as bs)

def strLt (a b : String) : Bool :=
  charsLt a.data b.data

theorem charsLt_trichotomy :
    ∀ as bs : List Char, charsLt as bs = true ∨ as = bs ∨ charsLt bs as = true := by
  intro as
  induction as with
  | nil =>
    intro bs
    cases bs with
    | nil => exact Or.inr (Or.inl rfl)
    | cons b bs => exact Or.inl rfl
  | cons a as ih =>
    intro bs
    cases bs with
    | nil => exact Or.inr (Or.inr rfl)
    | cons b bs =>
      rcases lt_trichotomy a b with h | h | h
      · refine Or.inl ?_
        simp [charsLt, h]
      · subst h
        rcases ih bs with h2 | h2 | h2
        · refine Or.inl ?_
          simp [charsLt, h2]
        · exact Or.inr (Or.inl (by rw [h2]))
        · refine Or.inr (Or.inr ?_)
          simp [charsLt, h2]
      · refine Or.inr (Or.inr ?_)
        simp [charsLt, h]

theorem charsLt_trans :
    ∀ as bs cs : List Char, charsLt as bs = true → charsLt bs cs = true →
      charsLt as cs = true := by
  intro as
  induction as with
  | nil =>
    intro bs cs h1 h2
    cases bs with
    | nil => exact absurd h1 (by simp [charsLt])
    | cons b bs =>
      cases cs with
      | nil => exact absurd h2 (by simp [charsLt])
      | cons c cs => simp [charsLt]
  | cons a as ih =>
    intro bs cs h1 h2
    cases bs with
    | nil => exact absurd h1 (by simp [charsLt])
    | cons b bs =>
      cases cs with
      | nil => exact absurd h2 (by simp [charsLt])
      | cons c cs =>
        simp only [charsLt, Bool.or_eq_true, decide_eq_true_eq,
          Bool.and_eq_true, beq_iff_eq] at h1 h2 ⊢
        rcases h1 with h1 | ⟨h1e, h1r⟩
        · rcases h2 with h2 | ⟨h2e, h2r⟩
          · exact Or.inl (lt_trans h1 h2)
          · exact Or.inl (h2e ▸ h1)
        · rcases h2 with h2 | ⟨h2e, h2r⟩
          · exact Or.inl (h1e ▸ h2)
          · exact Or.inr ⟨h1e.trans h2e, ih bs cs h1r h2r⟩

theorem charsLt_asymm :
    ∀ as bs : List Char, charsLt as bs = true → charsLt bs as = false := by
  intro as
  induction as with
  | nil =>
    intro bs h
    cases bs with
    | nil => exact absurd h (by simp [charsLt])
    | cons b bs => simp [charsLt]
  | cons a as ih =>
    intro bs h
    cases bs with
    | nil => exact absurd h (by simp [charsLt])
    | cons b bs =>
      simp only [charsLt, Bool.or_eq_true, decide_eq_true_eq, Bool.and_eq_true,
        beq_iff_eq] at h
      simp only [charsLt, Bool.or_eq_false_iff, decide_eq_false_iff_not,
        Bool.and_eq_false_iff]
      rcases h with h | ⟨he, hr⟩
      · refine ⟨not_lt_of_lt h, Or.inl ?_⟩
        simp only [beq_eq_false_iff_ne, ne_eq]
        exact fun hc => absurd (hc ▸ h) (lt_irrefl b)
      · subst he
        exact ⟨lt_irrefl a, Or.inr (ih bs hr)⟩

/-! ### book_search_tool.py — data model

`PErr` models Python exceptions crossing the pipeline: `sourceUnavailable` for
a retrieval backend error, `scoringUnavailable` for a cross-encoder scoring
error, `other` for anything else. `Row` is a row of the `DAUSACH` table as
selected by `SQLFullTextRetriever`; `RawDoc` is a raw Chroma hit (metadata
keys may be missing, hence `Option`); `BDoc` is a LangChain `Document` as the
pipeline builds it (page_content plus the metadata keys the code reads).
-/

inductive PErr
  | sourceUnavailable
  | scoringUnavailable
  | other (msg : String)
deriving DecidableEq, Repr

structure Row where
  ISBN : String
  TENSACH : String
  NOIDUNG : String
  HINHANHPATH : String
deriving DecidableEq, Repr

structure BDoc where
  content : String
  isbn : String
  tensach : Option String
  noidung : Option String
  hinhanh : Option String
deriving DecidableEq, Repr

structure RawDoc where
  content : String
  isbn : Option String
  tensach : Option String
  noidung : Option String
  hinhanh : Option String
deriving DecidableEq, Repr

/-- `SQLFullTextRetriever._get_relevant_documents`: runs the `SELECT TOP`
full-text query through the `dbExec` oracle; any exception is caught and an
empty list returned; rows are mapped to documents with
`page_content = TENSACH ++ "\n" ++ NOIDUNG` and `isbn = str(ISBN).strip()`. -/
def sqlFullTextGetRelevantDocuments
    (dbExec : String → Nat → Except PErr (List Row)) (top_k : Nat) (q : String) :
    List BDoc :=
  match dbExec q top_k with
  | .error _ => []
  | .ok rows => rows.map fun r =>
      { content := r.TENSACH ++ "\n" ++ r.NOIDUNG, isbn := pyStrip r.ISBN,
        tensach := some r.TENSACH, noidung := none, hinhanh := some r.HINHANHPATH }

/-- Metadata normalisation done by `LoggingChromaRetriever` on each hit:
`doc.metadata["isbn"] = str(doc.metadata.get("isbn", ""))`. -/
def chromaNormalize (d : RawDoc) : BDoc :=
  { content := d.content, isbn := d.isbn.getD "", tensach := d.tensach,
    noidung := d.noidung, hinhanh := d.hinhanh }

/-- `LoggingChromaRetriever._get_relevant_documents`: calls
`vectorstore.similarity_search(query, k)` (no try/except — backend errors
propagate) and normalises each document's isbn metadata. -/
def loggingChromaGetRelevantDocuments
    (similaritySearch : String → Nat → Except PErr (List RawDoc))
    (k : Nat) (q : String) : Except PErr (List BDoc) :=
  (similaritySearch q k).map (List.map chromaNormalize)

/-! ### LangChain `EnsembleRetriever.weighted_reciprocal_rank`

With `id_key = None` (as in the repository) candidates are keyed by
`page_content`: per-source contribution `weight / (rank + c)` over 1-based
ranks, duplicates collapsed to the first occurrence of each content across the
concatenated lists, then a stable sort descending by accumulated score.
Float scores are embedded as exact rationals. -/

def rrfContribution (w : ℚ) (c : Nat) (l : List BDoc) (key : String) : ℚ :=
  ((l.enum.filter fun p => p.2.content = key).map
    fun p => w / ((p.1 : ℚ) + 1 + (c : ℚ))).sum

def rrfScore (c : Nat) (w1 w2 : ℚ) (l1 l2 : List BDoc) (key : String) : ℚ :=
  rrfContribution w1 c l1 key + rrfContribution w2 c l2 key

def dedupByContent : List BDoc → List String → List BDoc
  | [], _ => []
  | d :: ds, seen =>
    if d.content ∈ seen then dedupByContent ds seen
    else d :: dedupByContent ds (d.content :: seen)

def weightedReciprocalRank (c : Nat) (w1 w2 : ℚ) (l1 l2 : List BDoc) : List BDoc :=
  stableSortBy
    (fun x y => rrfScore c w1 w2 l1 l2 x.content > rrfScore c w1 w2 l1 l2 y.content)
    (dedupByContent (l1 ++ l2) [])

/-- The raw fused list of `UniqueEnsembleRetriever`'s `super().invoke(...)`:
`SQLFullTextRetriever` (weight 0.5) and `LoggingChromaRetriever` (weight 0.5),
both with top-k 20, fused with the default RRF constant c = 60.
A Chroma failure propagates through the whole fusion. -/
def ensembleRankFusion
    (dbExec : String → Nat → Except PErr (List Row))
    (similaritySearch : String → Nat → Except PErr (List RawDoc))
    (q : String) : Except PErr (List BDoc) :=
  let l1 := sqlFullTextGetRelevantDocuments dbExec 20 q
  match loggingChromaGetRelevantDocuments similaritySearch 20 q with
  | .error e => .error e
  | .ok l2 => .ok (weightedReciprocalRank 60 (1/2) (1/2) l1 l2)

/-- The hard ISBN filter of `UniqueEnsembleRetriever.invoke`: keep the first
document for each non-empty stripped isbn, drop documents whose isbn is
empty. -/
def uniqueFilterByIsbn : List BDoc → List String → List BDoc
  | [], _ => []
  | d :: ds, seen =>
    if pyStrip d.isbn ≠ "" ∧ pyStrip d.isbn ∉ seen then
      d :: uniqueFilterByIsbn ds (pyStrip d.isbn :: seen)
    else uniqueFilterByIsbn ds seen

/-- `UniqueEnsembleRetriever.invoke`: RRF fusion followed by the hard ISBN
deduplication. -/
def uniqueEnsembleInvoke
    (dbExec : String → Nat → Except PErr (List Row))
    (similaritySearch : String → Nat → Except PErr (List RawDoc))
    (q : String) : Except PErr (List BDoc) :=
  (ensembleRankFusion dbExec similaritySearch q).map
    fun docs => uniqueFilterByIsbn docs []

/-! ### LangChain `CrossEncoderReranker` and the logging wrapper -/

/-- The list of (query, candidate-content) pairs the reranker hands to the
scoring model: one pair per candidate document, with no cap. -/
def scoringInput (q : String) (docs : List BDoc) : List (String × String) :=
  docs.map fun d => (q, d.content)

/-- `CrossEncoderReranker.compress_documents`: score all pairs (a scoring
failure propagates — there is no try/except), stable-sort descending by
score, return the top `top_n`. -/
def crossEncoderRerank
    (score : List (String × String) → Except PErr (List ℚ))
    (top_n : Nat) (docs : List BDoc) (q : String) : Except PErr (List BDoc) :=
  match score (scoringInput q docs) with
  | .error e => .error e
  | .ok scores =>
    .ok (((stableSortBy (fun x y => x.2 > y.2) (docs.zip scores)).take top_n).map
      Prod.fst)

/-- `LoggingCrossEncoderReranker.compress_documents`: empty input short-
circuits to an empty result before any scoring; otherwise defers to the
parent reranker. -/
def loggingCrossEncoderCompress
    (score : List (String × String) → Except PErr (List ℚ))
    (top_n : Nat) (docs : List BDoc) (q : String) : Except PErr (List BDoc) :=
  if docs.isEmpty then .ok []
  else crossEncoderRerank score top_n docs q

/-- `ContextualCompressionRetriever` as `_get_retrieval_chain` assembles it:
base retriever = `UniqueEnsembleRetriever`, compressor =
`LoggingCrossEncoderReranker` with `top_n = 5`; an empty base result returns
empty without compression. This is the `RetrievalPipeline.Search` of the
spec. -/
def retrievalChainInvoke
    (dbExec : String → Nat → Except PErr (List Row))
    (similaritySearch : String → Nat → Except PErr (List RawDoc))
    (score : List (String × String) → Except PErr (List ℚ))
    (q : String) : Except PErr (List BDoc) :=
  match uniqueEnsembleInvoke dbExec similaritySearch q with
  | .error e => .error e
  | .ok docs =>
    if docs.isEmpty then .ok []
    else loggingCrossEncoderCompress score 5 docs q

/-! ### Properties of the ISBN deduplication -/

/-- Joint invariant of `uniqueFilterByIsbn`: every output document has a
non-empty stripped isbn not in `seen` and is the first document of the input
carrying its isbn; output isbns are pairwise distinct. -/
theorem uniqueFilterByIsbn_spec :
    ∀ (docs : List BDoc) (seen : List String),
      (∀ d ∈ uniqueFilterByIsbn docs seen,
        pyStrip d.isbn ≠ "" ∧ pyStrip d.isbn ∉ seen ∧
          docs.find? (fun x => pyStrip x.isbn == pyStrip d.isbn) = some d) ∧
      (uniqueFilterByIsbn docs seen).Pairwise
        (fun a b => pyStrip a.isbn ≠ pyStrip b.isbn) := by
  intro docs
  induction docs with
  | nil => intro seen; simp [uniqueFilterByIsbn]
  | cons d ds ih =>
    intro seen
    simp only [uniqueFilterByIsbn]
    by_cases hkeep : pyStrip d.isbn ≠ "" ∧ pyStrip d.isbn ∉ seen
    · rw [if_pos hkeep]
      rcases ih (pyStrip d.isbn :: seen) with ⟨ihMem, ihPw⟩
      constructor
      · intro x hx
        rw [List.mem_cons] at hx
        rcases hx with hx | hx
        · subst hx
          refine ⟨hkeep.1, hkeep.2, ?_⟩
          simp [List.find?]
        · rcases ihMem x hx with ⟨hne, hnotin, hfind⟩
          rw [List.mem_cons] at hnotin
          push_neg at hnotin
          refine ⟨hne, hnotin.2, ?_⟩
          rw [List.find?_cons_of_neg, hfind]
          simp only [beq_iff_eq]
          exact fun hc => hnotin.1 hc.symm
      · refine List.pairwise_cons.mpr ⟨?_, ihPw⟩
        intro x hx
        rcases ihMem x hx with ⟨_, hnotin, _⟩
        rw [List.mem_cons] at hnotin
        push_neg at hnotin
        exact fun hc => hnotin.1 hc.symm
    · rw [if_neg hkeep]
      rcases ih seen with ⟨ihMem, ihPw⟩
      refine ⟨?_, ihPw⟩
      intro x hx
      rcases ihMem x hx with ⟨hne, hnotin, hfind⟩
      refine ⟨hne, hnotin, ?_⟩
      rw [List.find?_cons_of_neg, hfind]
      simp only [beq_iff_eq]
      intro hc
      rw [not_and_or] at hkeep
      push_neg at hkeep
      rcases hkeep with hk | hk
      · exact hne (hc ▸ hk)
      · exact hnotin (hc ▸ hk)

/-- C3: for every pair of input ranked lists, the fused-then-deduplicated
output of `UniqueEnsembleRetriever` has pairwise-distinct (stripped) ISBNs,
and each kept document is exactly the first document of the fused order that
carries its ISBN. -/
theorem c3_fused_dedup_unique_by_isbn (l1 l2 : List BDoc) :
    ((uniqueFilterByIsbn (weightedReciprocalRank 60 (1/2) (1/2) l1 l2) []).Pairwise
        fun a b => pyStrip a.isbn ≠ pyStrip b.isbn) ∧
    ∀ d ∈ uniqueFilterByIsbn (weightedReciprocalRank 60 (1/2) (1/2) l1 l2) [],
      (weightedReciprocalRank 60 (1/2) (1/2) l1 l2).find?
          (fun x => pyStrip x.isbn == pyStrip d.isbn) = some d := by
  rcases uniqueFilterByIsbn_spec (weightedReciprocalRank 60 (1/2) (1/2) l1 l2) []
    with ⟨hMem, hPw⟩
  exact ⟨hPw, fun d hd => (hMem d hd).2.2⟩

/-! ### Reranker claims -/

/-- C9: on an empty candidate list the logging reranker returns the empty
list for every scoring oracle — in particular for one that always fails —
so the external scoring capability is never consulted. -/
theorem c9_reranker_empty_no_scoring
    (score : List (String × String) → Except PErr (List ℚ))
    (top_n : Nat) (q : String) :
    loggingCrossEncoderCompress score top_n [] q = Except.ok [] := rfl

def c2Doc : BDoc :=
  { content := "Sách A", isbn := "111", tensach := none, noidung := none,
    hinhanh := none }

/-- C2 counterexample: with a failing scoring oracle and the non-empty
candidate list `[c2Doc]`, `compress_documents` propagates the error instead
of returning the top-N of the input order marked "unranked" — the claimed
fallback does not exist in the code. -/
theorem c2_cex_scoring_failure_not_recovered :
    loggingCrossEncoderCompress (fun _ => Except.error PErr.scoringUnavailable)
        5 [c2Doc] "q" = Except.error PErr.scoringUnavailable ∧
    loggingCrossEncoderCompress (fun _ => Except.error PErr.scoringUnavailable)
        5 [c2Doc] "q" ≠ Except.ok [c2Doc] := by
  refine ⟨rfl, ?_⟩
  intro h
  rw [show loggingCrossEncoderCompress (fun _ => Except.error PErr.scoringUnavailable)
        5 [c2Doc] "q" = Except.error PErr.scoringUnavailable from rfl] at h
  exact Except.noConfusion h

/-- C2 amended: if the external scoring call fails on a non-empty candidate
list, the reranker propagates that failure unchanged (the pipeline fails);
there is no fallback to the input order and no "unranked" marking. -/
theorem c2_amended_scoring_failure_propagates
    (score : List (String × String) → Except PErr (List ℚ))
    (top_n : Nat) (docs : List BDoc) (q : String) (e : PErr)
    (hne : docs ≠ [])
    (hfail : score (scoringInput q docs) = Except.error e) :
    loggingCrossEncoderCompress score top_n docs q = Except.error e := by
  unfold loggingCrossEncoderCompress
  rw [if_neg (by simpa using hne)]
  unfold crossEncoderRerank
  rw [hfail]

/-- Witness for the amended C2 at a concrete input. -/
theorem c2_amended_witness :
    loggingCrossEncoderCompress (fun _ => Except.error PErr.scoringUnavailable)
        5 [{ content := "x", isbn := "9", tensach := none, noidung := none,
             hinhanh := none }] "truy vấn"
      = Except.error PErr.scoringUnavailable :=
  c2_amended_scoring_failure_propagates _ 5 _ "truy vấn" PErr.scoringUnavailable
    (by simp) rfl

/-! ### Degradation claims (C1) -/

theorem dedupByContent_sub :
    ∀ (l : List BDoc) (seen : List String), ∀ d ∈ dedupByContent l seen, d ∈ l := by
  intro l
  induction l with
  | nil => intro seen d hd; simp [dedupByContent] at hd
  | cons x xs ih =>
    intro seen d hd
    simp only [dedupByContent] at hd
    by_cases hx : x.content ∈ seen
    · rw [if_pos hx] at hd
      exact List.mem_cons_of_mem x (ih seen d hd)
    · rw [if_neg hx] at hd
      rw [List.mem_cons] at hd
      rcases hd with hd | hd
      · exact hd ▸ List.mem_cons_self x xs
      · exact List.mem_cons_of_mem x (ih _ d hd)

theorem dedupByContent_ne_nil (x : BDoc) (xs : List BDoc) :
    dedupByContent (x :: xs) [] ≠ [] := by
  simp [dedupByContent]

theorem uniqueFilterByIsbn_sub :
    ∀ (docs : List BDoc) (seen : List String),
      ∀ d ∈ uniqueFilterByIsbn docs seen, d ∈ docs := by
  intro docs
  induction docs with
  | nil => intro seen d hd; simp [uniqueFilterByIsbn] at hd
  | cons x xs ih =>
    intro seen d hd
    simp only [uniqueFilterByIsbn] at hd
    by_cases hx : pyStrip x.isbn ≠ "" ∧ pyStrip x.isbn ∉ seen
    · rw [if_pos hx] at hd
      rw [List.mem_cons] at hd
      rcases hd with hd | hd
      · exact hd ▸ List.mem_cons_self x xs
      · exact List.mem_cons_of_mem x (ih _ d hd)
    · rw [if_neg hx] at hd
      exact List.mem_cons_of_mem x (ih seen d hd)

theorem uniqueFilterByIsbn_ne_nil :
    ∀ (docs : List BDoc) (seen : List String),
      (∃ d ∈ docs, pyStrip d.isbn ≠ "" ∧ pyStrip d.isbn ∉ seen) →
      uniqueFilterByIsbn docs seen ≠ [] := by
  intro docs
  induction docs with
  | nil => intro seen h; rcases h with ⟨d, hd, _⟩; simp at hd
  | cons x xs ih =>
    intro seen h
    simp only [uniqueFilterByIsbn]
    by_cases hx : pyStrip x.isbn ≠ "" ∧ pyStrip x.isbn ∉ seen
    · rw [if_pos hx]; simp
    · rw [if_neg hx]
      rcases h with ⟨d, hd, hdk⟩
      rw [List.mem_cons] at hd
      rcases hd with hd | hd
      · exact absurd (hd ▸ hdk) hx
      · exact ih seen ⟨d, hd, hdk⟩

def c1Rows : List Row :=
  [ { ISBN := "001", TENSACH := "Sách Một", NOIDUNG := "ND1", HINHANHPATH := "h1" },
    { ISBN := "002", TENSACH := "Sách Hai", NOIDUNG := "ND2", HINHANHPATH := "h2" },
    { ISBN := "003", TENSACH := "Sách Ba", NOIDUNG := "ND3", HINHANHPATH := "h3" } ]

/-- C1 counterexample: the semantic source raises `SourceUnavailable` while
the lexical (SQL full-text) source succeeds with 3 results, yet the pipeline
propagates the error instead of answering from the lexical results:
`LoggingChromaRetriever._get_relevant_documents` has no exception handler, so
the ensemble and the whole retrieval chain fail. -/
theorem c1_cex_semantic_failure_propagates :
    retrievalChainInvoke (fun _ _ => Except.ok c1Rows)
        (fun _ _ => Except.error PErr.sourceUnavailable)
        (fun ps => Except.ok (ps.map fun _ => (0 : ℚ))) "tìm sách"
      = Except.error PErr.sourceUnavailable := rfl

/-- Reduction of the assembled chain when the deduplicated base result is a
known non-empty list and the scorer answers. -/
theorem retrievalChainInvoke_eq_ok
    (dbExec : String → Nat → Except PErr (List Row))
    (similaritySearch : String → Nat → Except PErr (List RawDoc))
    (score : List (String × String) → Except PErr (List ℚ))
    (q : String) (docs : List BDoc) (sc : List ℚ)
    (hU : uniqueEnsembleInvoke dbExec similaritySearch q = Except.ok docs)
    (hne : docs ≠ [])
    (hsc : score (scoringInput q docs) = Except.ok sc) :
    retrievalChainInvoke dbExec similaritySearch score q =
      Except.ok (((stableSortBy (fun x y => x.2 > y.2) (docs.zip sc)).take 5).map
        Prod.fst) := by
  cases docs with
  | nil => exact absurd rfl hne
  | cons a as =>
    unfold retrievalChainInvoke
    rw [hU]
    show loggingCrossEncoderCompress score 5 (a :: as) q = _
    unfold loggingCrossEncoderCompress
    show crossEncoderRerank score 5 (a :: as) q = _
    unfold crossEncoderRerank
    rw [hsc]

/-- C1 amended: the recovery direction is the opposite one. If the lexical
source's query raises an error (its retriever catches every exception and
returns the empty list) while the semantic source succeeds with at least one
result, all results carrying usable ISBNs, and the scoring oracle is
well-formed, then the pipeline returns a non-empty result built solely from
the semantic results. -/
theorem c1_amended_lexical_failure_degrades
    (dbExec : String → Nat → Except PErr (List Row))
    (similaritySearch : String → Nat → Except PErr (List RawDoc))
    (score : List (String × String) → Except PErr (List ℚ))
    (q : String) (e : PErr) (ds : List RawDoc)
    (hdb : dbExec q 20 = Except.error e)
    (hch : similaritySearch q 20 = Except.ok ds)
    (hne : ds ≠ [])
    (hisbn : ∀ d ∈ ds.map chromaNormalize, pyStrip d.isbn ≠ "")
    (hscore : ∀ ps, ∃ l, score ps = Except.ok l ∧ l.length = ps.length) :
    ∃ out, retrievalChainInvoke dbExec similaritySearch score q = Except.ok out ∧
      out ≠ [] ∧ ∀ d ∈ out, d ∈ ds.map chromaNormalize := by
  have hl1 : sqlFullTextGetRelevantDocuments dbExec 20 q = [] := by
    simp [sqlFullTextGetRelevantDocuments, hdb]
  have hfusion : ensembleRankFusion dbExec similaritySearch q
      = Except.ok (weightedReciprocalRank 60 (1/2) (1/2) []
          (ds.map chromaNormalize)) := by
    unfold ensembleRankFusion
    rw [hl1]
    unfold loggingChromaGetRelevantDocuments
    rw [hch]
    rfl
  set L := ds.map chromaNormalize with hLdef
  set fused := weightedReciprocalRank 60 (1/2) (1/2) [] L with hfuseddef
  have hfused_sub : ∀ d ∈ fused, d ∈ L := by
    intro d hd
    rw [hfuseddef, weightedReciprocalRank, mem_stableSortBy] at hd
    have := dedupByContent_sub _ _ d hd
    simpa using this
  have hfused_ne : fused ≠ [] := by
    rw [hfuseddef, weightedReciprocalRank]
    intro hcon
    have hperm := stableSortBy_perm
      (fun x y => rrfScore 60 (1/2) (1/2) [] L x.content >
        rrfScore 60 (1/2) (1/2) [] L y.content)
      (dedupByContent ([] ++ L) [])
    rw [hcon] at hperm
    have hdn : dedupByContent ([] ++ L) [] = [] := hperm.symm.eq_nil
    cases hds : ds with
    | nil => exact hne hds
    | cons a as =>
      rw [hLdef, hds] at hdn
      simp only [List.map_cons, List.nil_append] at hdn
      exact dedupByContent_ne_nil _ _ hdn
  have hU : uniqueEnsembleInvoke dbExec similaritySearch q
      = Except.ok (uniqueFilterByIsbn fused []) := by
    unfold uniqueEnsembleInvoke
    rw [hfusion]
    rfl
  set U := uniqueFilterByIsbn fused [] with hUdef
  have hU_ne : U ≠ [] := by
    rw [hUdef]
    refine uniqueFilterByIsbn_ne_nil fused [] ?_
    cases hf : fused with
    | nil => exact absurd hf hfused_ne
    | cons a as =>
      refine ⟨a, hf ▸ List.mem_cons_self a as, ?_, by simp⟩
      exact hisbn a (hfused_sub a (hf ▸ List.mem_cons_self a as))
  have hU_sub : ∀ d ∈ U, d ∈ L := fun d hd =>
    hfused_sub d (uniqueFilterByIsbn_sub fused [] d hd)
  rcases hscore (scoringInput q U) with ⟨sc, hsc, hsclen⟩
  have hzip_len : (U.zip sc).length = U.length := by
    rw [List.length_zip, hsclen]
    simp [scoringInput]
  have hout := retrievalChainInvoke_eq_ok dbExec similaritySearch score q U sc
    hU hU_ne hsc
  refine ⟨_, hout, ?_, ?_⟩
  · intro hcon
    have hlen := congrArg List.length hcon
    rw [List.length_map, List.length_take, length_stableSortBy, hzip_len] at hlen
    simp only [List.length_nil] at hlen
    have : U.length = 0 := by omega
    exact hU_ne (List.length_eq_zero.mp this)
  · intro d hd
    rw [List.mem_map] at hd
    rcases hd with ⟨p, hp, hpd⟩
    have hp2 : p ∈ stableSortBy (fun x y => x.2 > y.2) (U.zip sc) :=
      List.mem_of_mem_take hp
    rw [mem_stableSortBy] at hp2
    have : p.1 ∈ U := (List.of_mem_zip hp2).1
    exact hU_sub d (hpd ▸ this)

def c1ChromaDoc : RawDoc :=
  { content := "Nội dung", isbn := some "42", tensach := some "Sách",
    noidung := none, hinhanh := none }

/-- Witness for the amended C1: lexical source down, semantic source returns
one usable document; the pipeline answers with that document. -/
theorem c1_amended_witness :
    ∃ out, retrievalChainInvoke (fun _ _ => Except.error PErr.sourceUnavailable)
        (fun _ _ => Except.ok [c1ChromaDoc])
        (fun ps => Except.ok (ps.map fun _ => (0 : ℚ))) "q"
      = Except.ok out ∧ out ≠ [] ∧
      ∀ d ∈ out, d ∈ [c1ChromaDoc].map chromaNormalize :=
  c1_amended_lexical_failure_degrades _ _ _ "q" PErr.sourceUnavailable _
    rfl rfl (by simp) (by intro d hd; simp [chromaNormalize, c1ChromaDoc] at hd; subst hd; decide)
    (fun ps => ⟨ps.map fun _ => (0 : ℚ), rfl, by simp⟩)

/-! ### How many candidates reach the scoring model (C7) -/

theorem dedupByContent_length_le :
    ∀ (l : List BDoc) (seen : List String),
      (dedupByContent l seen).length ≤ l.length := by
  intro l
  induction l with
  | nil => intro seen; simp [dedupByContent]
  | cons x xs ih =>
    intro seen
    simp only [dedupByContent]
    by_cases hx : x.content ∈ seen
    · rw [if_pos hx]
      exact le_trans (ih seen) (Nat.le_succ _)
    · rw [if_neg hx]
      simpa using ih (x.content :: seen)

theorem uniqueFilterByIsbn_length_le :
    ∀ (docs : List BDoc) (seen : List String),
      (uniqueFilterByIsbn docs seen).length ≤ docs.length := by
  intro docs
  induction docs with
  | nil => intro seen; simp [uniqueFilterByIsbn]
  | cons x xs ih =>
    intro seen
    simp only [uniqueFilterByIsbn]
    by_cases hx : pyStrip x.isbn ≠ "" ∧ pyStrip x.isbn ∉ seen
    · rw [if_pos hx]
      simpa using ih (pyStrip x.isbn :: seen)
    · rw [if_neg hx]
      exact le_trans (ih seen) (Nat.le_succ _)

theorem dedupByContent_eq_self :
    ∀ (l : List BDoc) (seen : List String),
      (∀ d ∈ l, d.content ∉ seen) → (l.map BDoc.content).Nodup →
      dedupByContent l seen = l := by
  intro l
  induction l with
  | nil => intro seen _ _; rfl
  | cons x xs ih =>
    intro seen hseen hnodup
    simp only [dedupByContent]
    rw [if_neg (hseen x (List.mem_cons_self x xs))]
    rw [List.map_cons, List.nodup_cons] at hnodup
    congr 1
    refine ih _ ?_ hnodup.2
    intro d hd
    rw [List.mem_cons]
    push_neg
    constructor
    · intro hc
      exact hnodup.1 (hc ▸ List.mem_map_of_mem BDoc.content hd)
    · exact hseen d (List.mem_cons_of_mem x hd)

theorem uniqueFilterByIsbn_eq_self :
    ∀ (docs : List BDoc) (seen : List String),
      (∀ d ∈ docs, pyStrip d.isbn ≠ "" ∧ pyStrip d.isbn ∉ seen) →
      (docs.map fun d => pyStrip d.isbn).Nodup →
      uniqueFilterByIsbn docs seen = docs := by
  intro docs
  induction docs with
  | nil => intro seen _ _; rfl
  | cons x xs ih =>
    intro seen hseen hnodup
    simp only [uniqueFilterByIsbn]
    rw [if_pos (hseen x (List.mem_cons_self x xs))]
    rw [List.map_cons, List.nodup_cons] at hnodup
    congr 1
    refine ih _ ?_ hnodup.2
    intro d hd
    refine ⟨(hseen d (List.mem_cons_of_mem x hd)).1, ?_⟩
    rw [List.mem_cons]
    push_neg
    constructor
    · intro hc
      exact hnodup.1 (hc ▸ List.mem_map_of_mem (fun d => pyStrip d.isbn) hd)
    · exact (hseen d (List.mem_cons_of_mem x hd)).2

def c7Rows : List Row :=
  (List.range 20).map fun i =>
    { ISBN := String.mk [Char.ofNat (65 + i)],
      TENSACH := String.mk [Char.ofNat (65 + i)],
      NOIDUNG := "nd", HINHANHPATH := "" }

def c7Chroma : List RawDoc :=
  [{ content := "zzz", isbn := some "Z9", tensach := none, noidung := none,
     hinhanh := none }]

/-- C7 counterexample: both sources return their full top-20/top-1, all
contents and ISBNs distinct, so the fused deduplicated list has 21
candidates, and the reranker hands all 21 (query, content) pairs to the
scoring model — more than the claimed maximum of 20. The code passes the
whole fused list to `CrossEncoderReranker`; no candidate-count cap exists. -/
def c7L1 : List BDoc :=
  sqlFullTextGetRelevantDocuments (fun _ _ => Except.ok c7Rows) 20 "q"

def c7L2 : List BDoc :=
  c7Chroma.map chromaNormalize

theorem c7_cex_scores_21_candidates :
    (uniqueEnsembleInvoke (fun _ _ => Except.ok c7Rows)
        (fun _ _ => Except.ok c7Chroma) "q").map
      (fun docs => (scoringInput "q" docs).length) = Except.ok 21 := by
  have hfusion : ensembleRankFusion (fun _ _ => Except.ok c7Rows)
      (fun _ _ => Except.ok c7Chroma) "q"
      = Except.ok (weightedReciprocalRank 60 (1/2) (1/2) c7L1 c7L2) := rfl
  have hnodupContent : ((c7L1 ++ c7L2).map BDoc.content).Nodup := by decide
  have hkeys : ∀ d ∈ c7L1 ++ c7L2, pyStrip d.isbn ≠ "" := by decide
  have hnodupKeys : ((c7L1 ++ c7L2).map fun d => pyStrip d.isbn).Nodup := by
    decide
  have hlen : (c7L1 ++ c7L2).length = 21 := by decide
  have hdedup : dedupByContent (c7L1 ++ c7L2) [] = c7L1 ++ c7L2 :=
    dedupByContent_eq_self (c7L1 ++ c7L2) [] (by simp) hnodupContent
  set S := stableSortBy
    (fun x y => rrfScore 60 (1/2) (1/2) c7L1 c7L2 x.content >
      rrfScore 60 (1/2) (1/2) c7L1 c7L2 y.content) (c7L1 ++ c7L2) with hSdef
  have hSperm : List.Perm S (c7L1 ++ c7L2) := by
    rw [hSdef]; exact stableSortBy_perm _ _
  have hwrrf : weightedReciprocalRank 60 (1/2) (1/2) c7L1 c7L2 = S := by
    rw [weightedReciprocalRank, hdedup, hSdef]
  have hUeq : uniqueFilterByIsbn S [] = S := by
    refine uniqueFilterByIsbn_eq_self S [] ?_ ?_
    · intro d hd
      exact ⟨hkeys d (hSperm.mem_iff.mp hd), by simp⟩
    · exact ((hSperm.map fun d => pyStrip d.isbn).nodup_iff).mpr hnodupKeys
  have hU : uniqueEnsembleInvoke (fun _ _ => Except.ok c7Rows)
      (fun _ _ => Except.ok c7Chroma) "q" = Except.ok S := by
    unfold uniqueEnsembleInvoke
    rw [hfusion, hwrrf]
    simp only [Except.map]
    rw [hUeq]
  rw [hU]
  simp only [Except.map]
  rw [show (scoringInput "q" S).length = S.length by simp [scoringInput]]
  rw [hSperm.length_eq, hlen]

/-- C7 amended: the reranker scores the entire fused candidate list — there
is no separate per-rerank cap of 20. The number of (query, candidate) pairs
supplied to the scoring model equals the fused list's length, which is
bounded by 40 = 20 + 20 because each source returns at most its top-20
(`SELECT TOP(top_k)` and `similarity_search(k=20)`), not by 20. -/
theorem c7_amended_scoring_bounded_by_sum_of_sources
    (dbExec : String → Nat → Except PErr (List Row))
    (similaritySearch : String → Nat → Except PErr (List RawDoc))
    (q : String)
    (hdb : ∀ rows, dbExec q 20 = Except.ok rows → rows.length ≤ 20)
    (hch : ∀ ds, similaritySearch q 20 = Except.ok ds → ds.length ≤ 20) :
    ∀ docs, uniqueEnsembleInvoke dbExec similaritySearch q = Except.ok docs →
      (scoringInput q docs).length = docs.length ∧ docs.length ≤ 40 := by
  intro docs hdocs
  have hl1 : (sqlFullTextGetRelevantDocuments dbExec 20 q).length ≤ 20 := by
    unfold sqlFullTextGetRelevantDocuments
    cases hr : dbExec q 20 with
    | error e => simp
    | ok rows => simpa using hdb rows hr
  unfold uniqueEnsembleInvoke ensembleRankFusion at hdocs
  cases hc : loggingChromaGetRelevantDocuments similaritySearch 20 q with
  | error e =>
    rw [hc] at hdocs
    simp [Except.map] at hdocs
  | ok l2 =>
    rw [hc] at hdocs
    simp only [Except.map, Except.ok.injEq] at hdocs
    have hl2 : l2.length ≤ 20 := by
      unfold loggingChromaGetRelevantDocuments at hc
      cases hcc : similaritySearch q 20 with
      | error e => rw [hcc] at hc; simp [Except.map] at hc
      | ok ds =>
        rw [hcc] at hc
        simp only [Except.map, Except.ok.injEq] at hc
        rw [← hc, List.length_map]
        exact hch ds hcc
    constructor
    · simp [scoringInput]
    · rw [← hdocs]
      calc (uniqueFilterByIsbn (weightedReciprocalRank 60 (1/2) (1/2)
              (sqlFullTextGetRelevantDocuments dbExec 20 q) l2) []).length
          ≤ (weightedReciprocalRank 60 (1/2) (1/2)
              (sqlFullTextGetRelevantDocuments dbExec 20 q) l2).length :=
            uniqueFilterByIsbn_length_le _ _
        _ ≤ (sqlFullTextGetRelevantDocuments dbExec 20 q ++ l2).length := by
            rw [weightedReciprocalRank, length_stableSortBy]
            exact dedupByContent_length_le _ _
        _ ≤ 40 := by
            rw [List.length_append]
            omega

/-- Witness for the amended C7 at a concrete input (both sources honour
their top-20 bound). -/
theorem c7_amended_witness :
    (scoringInput "q" []).length = ([] : List BDoc).length ∧
      ([] : List BDoc).length ≤ 40 :=
  c7_amended_scoring_bounded_by_sum_of_sources
    (fun _ _ => Except.ok []) (fun _ _ => Except.ok []) "q"
    (fun rows hr => by injection hr with h; rw [← h]; decide)
    (fun ds hd => by injection hd with h; rw [← h]; decide)
    [] rfl

/-! ### reference_search.py — same-page context expansion

`Chunk` is a stored/retrieved document chunk: `page_content` plus the `page`
metadata key (optional, since `metadata.get` is used with defaults).
The Chroma collection is modelled as an in-memory list in insertion order;
`collection.get(where={"page": p})` is a filter over it.
-/

structure Chunk where
  content : String
  page : Option Nat
deriving DecidableEq, Repr

/-- `doc.metadata.get("page", 1)` — default used when collecting the pages to
fetch. -/
def anchorPage (d : Chunk) : Nat := d.page.getD 1

/-- `d.metadata.get("page", 0)` — default used in the final sort key. -/
def sortPage (d : Chunk) : Nat := d.page.getD 0

/-- `d.page_content[:50]` — second component of the final sort key. -/
def contentKey (d : Chunk) : String := pyTake 50 d.content

/-- `collection.get(where={"page": p})`: all stored chunks whose page
metadata equals `p`, in store order. -/
def fetchPage (store : List Chunk) (p : Nat) : List Chunk :=
  store.filter fun d => d.page == some p

/-- `pages_to_fetch = set(); ... pages_to_fetch.add(page)` followed by
`sorted(pages_to_fetch)`: the strictly-sorted list of anchor pages. -/
def pageSet (chunks : List Chunk) : List Nat :=
  chunks.foldl (fun acc d => insNoDup (anchorPage d) acc) []

/-- The `seen_contents` dedup inside the page loop: keep chunks whose content
was not seen, threading the seen set. Returns (kept, extended seen). -/
def dedupChunks : List Chunk → List String → List Chunk × List String
  | [], seen => ([], seen)
  | d :: ds, seen =>
    if d.content ∈ seen then dedupChunks ds seen
    else
      let r := dedupChunks ds (d.content :: seen)
      (d :: r.1, r.2)

/-- The page loop of `_expand_same_page`: for each page in sorted order,
fetch all store chunks of that page and append those with unseen content. -/
def fetchPages (store : List Chunk) : List Nat → List String → List Chunk
  | [], _ => []
  | p :: ps, seen =>
    let r := dedupChunks (fetchPage store p) seen
    r.1 ++ fetchPages store ps r.2

/-- Python tuple-key comparison for
`sort(key=lambda d: (d.metadata.get("page", 0), d.page_content[:50]))`:
page first, then code-point-lexicographic comparison of the content prefix. -/
def chunkKeyLt (a b : Chunk) : Bool :=
  decide (sortPage a < sortPage b) ||
    (decide (sortPage a = sortPage b) && strLt (contentKey a) (contentKey b))

/-- `ReferenceRetrievalSystem._expand_same_page`: collect the anchor pages,
fetch every stored chunk of those pages (deduplicating by content), and
stable-sort by `(page default 0, content[:50])`. -/
def expandSamePage (store : List Chunk) (chunks : List Chunk) : List Chunk :=
  stableSortBy chunkKeyLt (fetchPages store (pageSet chunks) [])

/-- The pages that actually contribute at least one (content-unseen) chunk
during the page loop — an analysis device for the idempotence proof. -/
def contribPages (store : List Chunk) : List Nat → List String → List Nat
  | [], _ => []
  | p :: ps, seen =>
    let r := dedupChunks (fetchPage store p) seen
    if r.1 = [] then contribPages store ps r.2
    else p :: contribPages store ps r.2

theorem dedupChunks_snd_of_fst_nil :
    ∀ (l : List Chunk) (seen : List String),
      (dedupChunks l seen).1 = [] → (dedupChunks l seen).2 = seen := by
  intro l
  induction l with
  | nil => intro seen _; rfl
  | cons d ds ih =>
    intro seen h
    simp only [dedupChunks] at h ⊢
    by_cases hd : d.content ∈ seen
    · rw [if_pos hd] at h ⊢
      exact ih seen h
    · rw [if_neg hd] at h
      exact absurd h (by simp)

theorem dedupChunks_fst_sub :
    ∀ (l : List Chunk) (seen : List String),
      ∀ d ∈ (dedupChunks l seen).1, d ∈ l := by
  intro l
  induction l with
  | nil => intro seen d hd; simp [dedupChunks] at hd
  | cons x xs ih =>
    intro seen d hd
    simp only [dedupChunks] at hd
    by_cases hx : x.content ∈ seen
    · rw [if_pos hx] at hd
      exact List.mem_cons_of_mem x (ih seen d hd)
    · rw [if_neg hx] at hd
      simp only [List.mem_cons] at hd
      rcases hd with hd | hd
      · exact hd ▸ List.mem_cons_self x xs
      · exact List.mem_cons_of_mem x (ih _ d hd)

theorem mem_fetchPage {store : List Chunk} {p : Nat} {d : Chunk} :
    d ∈ fetchPage store p ↔ d ∈ store ∧ d.page = some p := by
  simp [fetchPage, List.mem_filter]

/-- Every chunk produced by the page loop carries genuine page metadata equal
to one of the fetched pages. -/
theorem fetchPages_page_mem :
    ∀ (pages : List Nat) (seen : List String) (store : List Chunk),
      ∀ d ∈ fetchPages store pages seen,
        ∃ p ∈ pages, d.page = some p := by
  intro pages
  induction pages with
  | nil => intro seen store d hd; simp [fetchPages] at hd
  | cons p ps ih =>
    intro seen store d hd
    simp only [fetchPages, List.mem_append] at hd
    rcases hd with hd | hd
    · have := dedupChunks_fst_sub _ _ d hd
      exact ⟨p, List.mem_cons_self p ps, (mem_fetchPage.mp this).2⟩
    · rcases ih _ store d hd with ⟨q, hq, hdq⟩
      exact ⟨q, List.mem_cons_of_mem p hq, hdq⟩

/-- A page is a contributing page exactly when some produced chunk carries
it. -/
theorem mem_contribPages :
    ∀ (pages : List Nat) (seen : List String) (store : List Chunk) (p : Nat),
      p ∈ contribPages store pages seen ↔
        ∃ d ∈ fetchPages store pages seen, d.page = some p := by
  intro pages
  induction pages with
  | nil => intro seen store p; simp [contribPages, fetchPages]
  | cons q qs ih =>
    intro seen store p
    simp only [contribPages, fetchPages]
    by_cases hq : (dedupChunks (fetchPage store q) seen).1 = []
    · rw [if_pos hq, hq]
      simp only [List.nil_append]
      exact ih _ store p
    · rw [if_neg hq]
      constructor
      · intro hp
        rw [List.mem_cons] at hp
        rcases hp with hp | hp
        · cases hk : (dedupChunks (fetchPage store q) seen).1 with
          | nil => exact absurd hk hq
          | cons a as =>
            refine ⟨a, ?_, ?_⟩
            · simp
            · have haq : a ∈ fetchPage store q :=
                dedupChunks_fst_sub _ _ a (hk ▸ List.mem_cons_self a as)
              rw [hp]
              exact (mem_fetchPage.mp haq).2
        · rcases (ih _ store p).mp hp with ⟨d, hd, hdp⟩
          exact ⟨d, List.mem_append_right _ hd, hdp⟩
      · intro hp
        rcases hp with ⟨d, hd, hdp⟩
        rw [List.mem_append] at hd
        rcases hd with hd | hd
        · have : d ∈ fetchPage store q := dedupChunks_fst_sub _ _ d hd
          have hdq : d.page = some q := (mem_fetchPage.mp this).2
          rw [hdq] at hdp
          have hqp : q = p := Option.some_injective _ hdp
          rw [← hqp]
          exact List.mem_cons_self q _
        · exact List.mem_cons_of_mem q ((ih _ store p).mpr ⟨d, hd, hdp⟩)

theorem contribPages_sublist :
    ∀ (pages : List Nat) (seen : List String) (store : List Chunk),
      List.Sublist (contribPages store pages seen) pages := by
  intro pages
  induction pages with
  | nil => intro seen store; simp [contribPages]
  | cons p ps ih =>
    intro seen store
    simp only [contribPages]
    by_cases hp : (dedupChunks (fetchPage store p) seen).1 = []
    · rw [if_pos hp]
      exact List.Sublist.cons p (ih _ store)
    · rw [if_neg hp]
      exact List.Sublist.cons₂ p (ih _ store)

/-- Restricting the page loop to its contributing pages reproduces exactly
the same output. -/
theorem fetchPages_contribPages :
    ∀ (pages : List Nat) (seen : List String) (store : List Chunk),
      fetchPages store (contribPages store pages seen) seen
        = fetchPages store pages seen := by
  intro pages
  induction pages with
  | nil => intro seen store; rfl
  | cons p ps ih =>
    intro seen store
    simp only [contribPages]
    by_cases hp : (dedupChunks (fetchPage store p) seen).1 = []
    · rw [if_pos hp]
      have hseen := dedupChunks_snd_of_fst_nil _ _ hp
      conv_rhs => rw [fetchPages]
      rw [hp, hseen]
      simp only [List.nil_append]
      exact ih seen store
    · rw [if_neg hp]
      conv_lhs => rw [fetchPages]
      conv_rhs => rw [fetchPages]
      rw [ih _ store]

theorem mem_pageSet_aux :
    ∀ (chunks : List Chunk) (acc : List Nat) (p : Nat),
      p ∈ chunks.foldl (fun acc d => insNoDup (anchorPage d) acc) acc ↔
        p ∈ acc ∨ ∃ d ∈ chunks, anchorPage d = p := by
  intro chunks
  induction chunks with
  | nil => intro acc p; simp
  | cons c cs ih =>
    intro acc p
    simp only [List.foldl_cons]
    rw [ih]
    rw [mem_insNoDup]
    constructor
    · rintro ((h | h) | ⟨d, hd, hdp⟩)
      · exact Or.inr ⟨c, List.mem_cons_self c cs, h.symm⟩
      · exact Or.inl h
      · exact Or.inr ⟨d, List.mem_cons_of_mem c hd, hdp⟩
    · rintro (h | ⟨d, hd, hdp⟩)
      · exact Or.inl (Or.inr h)
      · rw [List.mem_cons] at hd
        rcases hd with hd | hd
        · exact Or.inl (Or.inl (hd ▸ hdp.symm))
        · exact Or.inr ⟨d, hd, hdp⟩

theorem mem_pageSet {chunks : List Chunk} {p : Nat} :
    p ∈ pageSet chunks ↔ ∃ d ∈ chunks, anchorPage d = p := by
  rw [pageSet, mem_pageSet_aux]
  simp

theorem pageSet_sorted_aux :
    ∀ (chunks : List Chunk) (acc : List Nat), acc.Sorted (· < ·) →
      (chunks.foldl (fun acc d => insNoDup (anchorPage d) acc) acc).Sorted
        (· < ·) := by
  intro chunks
  induction chunks with
  | nil => intro acc h; exact h
  | cons c cs ih =>
    intro acc h
    simp only [List.foldl_cons]
    exact ih _ (insNoDup_sorted h)

theorem pageSet_sorted (chunks : List Chunk) : (pageSet chunks).Sorted (· < ·) :=
  pageSet_sorted_aux chunks [] (by simp)

/-- The pages collected from an expansion result are exactly the contributing
pages of the original run. -/
theorem pageSet_expandSamePage (store chunks : List Chunk) :
    pageSet (expandSamePage store chunks)
      = contribPages store (pageSet chunks) [] := by
  refine eq_of_sorted_lt_of_mem_iff (pageSet_sorted _)
    (List.Pairwise.sublist (contribPages_sublist _ _ _) (pageSet_sorted chunks))
    ?_
  intro p
  rw [mem_pageSet, mem_contribPages]
  constructor
  · rintro ⟨d, hd, hdp⟩
    rw [expandSamePage, mem_stableSortBy] at hd
    rcases fetchPages_page_mem _ _ _ d hd with ⟨r, _, hr⟩
    have hanchor : anchorPage d = r := by rw [anchorPage, hr]; rfl
    refine ⟨d, hd, ?_⟩
    rw [hr]
    exact congrArg some (hanchor.symm.trans hdp)
  · rintro ⟨d, hd, hdp⟩
    refine ⟨d, ?_, ?_⟩
    · rw [expandSamePage, mem_stableSortBy]; exact hd
    · rw [anchorPage, hdp]; rfl

/-- C4: same-page context expansion is idempotent — for every store state and
every anchor set, expanding the expansion yields exactly the same list (same
set and same order) as expanding once. -/
theorem c4_expand_same_page_idempotent (store chunks : List Chunk) :
    expandSamePage store (expandSamePage store chunks)
      = expandSamePage store chunks := by
  conv_lhs => rw [expandSamePage, pageSet_expandSamePage,
    fetchPages_contribPages]
  rfl

/-! ### Order of the expansion output (C5) -/

theorem chunkKeyLt_co_trans (x y z : Chunk) :
    chunkKeyLt x z = true → chunkKeyLt x y = true ∨ chunkKeyLt y z = true := by
  simp only [chunkKeyLt, Bool.or_eq_true, decide_eq_true_eq, Bool.and_eq_true]
  intro h
  rcases Nat.lt_trichotomy (sortPage x) (sortPage y) with h1 | h1 | h1
  · exact Or.inl (Or.inl h1)
  · rcases h with h | ⟨h2, h3⟩
    · exact Or.inr (Or.inl (h1 ▸ h))
    · rcases charsLt_trichotomy (contentKey x).data (contentKey y).data
        with h4 | h4 | h4
      · exact Or.inl (Or.inr ⟨h1, h4⟩)
      · refine Or.inr (Or.inr ⟨by omega, ?_⟩)
        rw [strLt, ← h4]
        exact h3
      · refine Or.inr (Or.inr ⟨by omega, ?_⟩)
        exact charsLt_trans _ _ _ h4 h3
  · rcases h with h | ⟨h2, h3⟩
    · exact Or.inr (Or.inl (by omega))
    · exact Or.inr (Or.inl (by omega))

theorem chunkKeyLt_asymm (x y : Chunk) :
    chunkKeyLt x y = true → chunkKeyLt y x = false := by
  simp only [chunkKeyLt, Bool.or_eq_true, decide_eq_true_eq, Bool.and_eq_true,
    Bool.or_eq_false_iff, Bool.and_eq_false_iff, decide_eq_false_iff_not]
  rintro (h | ⟨h1, h2⟩)
  · exact ⟨by omega, Or.inl (by omega)⟩
  · exact ⟨by omega, Or.inr (charsLt_asymm _ _ h2)⟩

/-- C5 amended: the output of same-page expansion is sorted ascending by the
key `(page (default 0), first 50 characters of content)`. Ties within a page
are broken by the lexicographic order of the 50-character content prefix —
not by the chunks' original within-page order. -/
theorem c5_amended_sorted_by_page_then_content50 (store chunks : List Chunk) :
    (expandSamePage store chunks).Pairwise
      fun a b => chunkKeyLt b a = false := by
  rw [expandSamePage]
  exact stableSortBy_pairwise chunkKeyLt_co_trans chunkKeyLt_asymm _

def c5Store : List Chunk :=
  [{ content := "bbb", page := some 1 }, { content := "aaa", page := some 1 }]

def c5Anchors : List Chunk :=
  [{ content := "xxx", page := some 1 }]

/-- C5 counterexample: the store holds page-1 chunks in original order
`["bbb", "aaa"]`, but the expansion returns them as `["aaa", "bbb"]` — the
within-page tie is broken by the content's 50-character prefix, not by the
original within-page order claimed by the spec. -/
theorem c5_cex_ties_not_by_store_order :
    expandSamePage c5Store c5Anchors
      = [{ content := "aaa", page := some 1 }, { content := "bbb", page := some 1 }] ∧
    expandSamePage c5Store c5Anchors
      ≠ [{ content := "bbb", page := some 1 }, { content := "aaa", page := some 1 }] := by
  constructor
  · decide
  · decide

/-! ### reference_search.py — `index_documents` (C6)

`upsert batchIdx attempt` is the outcome of the `collection.upsert` call for
batch `batchIdx` (0-based) on its `attempt`-th try (0-based): success or an
exception with a message. Thread-completion order (`as_completed`) is
nondeterministic in the source; it only affects which failure strings land in
the first-3 detail window, so batches are modelled in submission order. -/

inductive UpsertOutcome
  | ok
  | exc (msg : String)
deriving DecidableEq, Repr

/-- `"429" in error_msg or "quota" in error_msg or "limit" in error_msg` over
the lowercased exception text. -/
def isRateLimitMsg (msg : String) : Bool :=
  strHas (lowerStr msg) "429" || strHas (lowerStr msg) "quota" ||
    strHas (lowerStr msg) "limit"

def joinSep (sep : String) : List String → String
  | [] => ""
  | [a] => a
  | a :: b :: rest => a ++ sep ++ joinSep sep (b :: rest)

/-- The retry loop of `process_batch`: at most `maxRetries` retries after the
first attempt; a rate-limit-classified exception retries with backoff (the
sleep is time-only and not modelled), any other exception aborts the batch
with an ERROR message. `fuel` bounds loop iterations and is always sufficient
at the call site (`maxRetries + 1` attempts happen at most). -/
def processBatchLoop (outcome : Nat → UpsertOutcome) (current maxRetries : Nat) :
    Nat → Nat → Nat → String
  | 0, _, _ => ""
  | fuel + 1, attempt, retryCount =>
    match outcome attempt with
    | .ok => s!"✅ Batch {current} OK"
    | .exc m =>
      if isRateLimitMsg m then
        if retryCount + 1 > maxRetries then
          s!"❌ Batch {current} FAILED after {maxRetries} retries"
        else
          processBatchLoop outcome current maxRetries fuel (attempt + 1)
            (retryCount + 1)
      else s!"❌ Batch {current} ERROR: {m}"

def processBatch (outcome : Nat → UpsertOutcome) (batchIdx : Nat) : String :=
  processBatchLoop outcome (batchIdx + 1) 3 4 0 0

/-- `documents[i : i + batch_size]` batching (fuel-structured; the fuel
`docs.length` always suffices for a positive batch size). -/
def chunkBatchesAux (bs : Nat) : Nat → List α → List (List α)
  | 0, _ => []
  | _, [] => []
  | fuel + 1, d :: ds =>
    (d :: ds.take (bs - 1)) :: chunkBatchesAux bs fuel (ds.drop (bs - 1))

def chunkBatches (docs : List α) (bs : Nat) : List (List α) :=
  chunkBatchesAux bs docs.length docs

/-- `ReferenceRetrievalSystem.index_documents`: run every batch, collect the
results whose text does NOT contain `"OK"` as failures, and raise an
aggregated exception (count plus first three details) iff any exist. -/
def indexDocuments (upsert : Nat → Nat → UpsertOutcome) (docs : List α)
    (batchSize : Nat) : Except String Unit :=
  let batches := chunkBatches docs batchSize
  let results := (List.range batches.length).map fun i =>
    processBatch (upsert i) i
  let failed := results.filter fun r => !(strHas r "OK")
  if failed.length > 0 then
    let n := failed.length
    .error (s!"Indexing incomplete. {n} batches failed. Details: "
      ++ joinSep "; " (failed.take 3))
  else .ok ()

/-- C6: the success test is the substring check `"OK" in result`, so a batch
whose upsert raises an exception whose text contains `"OK"` — such as
`"BROKEN"` — produces the ERROR result string yet is counted as a success:
`index_documents` returns normally although the batch failed, contradicting
the claim (and the code's own ❌ marker, which it logs while treating the
batch as succeeded). A batch failing with a message not containing `"OK"` is
aggregated as the claim describes. -/
theorem c6_error_containing_OK_counted_as_success :
    processBatch (fun _ => UpsertOutcome.exc "BROKEN") 0
      = "❌ Batch 1 ERROR: BROKEN" ∧
    indexDocuments (fun _ _ => UpsertOutcome.exc "BROKEN")
        ["chunk"] 100 = Except.ok () ∧
    indexDocuments (fun _ _ => UpsertOutcome.exc "boom")
        ["chunk"] 100 = Except.error
          "Indexing incomplete. 1 batches failed. Details: ❌ Batch 1 ERROR: boom" :=
  ⟨rfl, rfl, rfl⟩

/-! ### pdf_reader_tool.py — per-path retriever cache (C8) -/

/-- `pdf_path in PDF_RETRIEVAL_CACHE` / `PDF_RETRIEVAL_CACHE[pdf_path]` over
an association-list model of the dict. -/
def cacheLookup : List (String × Nat) → String → Option Nat
  | [], _ => none
  | (k, v) :: rest, path => if k == path then some v else cacheLookup rest path

/-- `get_or_create_retriever`, sequential semantics: cache hit returns the
stored system untouched; cache miss runs `build` (ingestion + indexing +
construction), stores the result, and reports that a build happened. -/
def getOrCreateRetriever (build : String → Nat) (cache : List (String × Nat))
    (path : String) : Nat × List (String × Nat) × Bool :=
  match cacheLookup cache path with
  | some r => (r, cache, false)
  | none =>
    let r := build path
    (r, (path, r) :: cache, true)

/-- One thread's control point inside `get_or_create_retriever` when two
threads race on the same path: `start` — before the membership check;
`building` — observed a miss, running ingestion + indexing; `storing r` —
finished the build `r`, about to write the dict; `done r` — returned `r`.
The check, the build and the store are separate program points with no lock
around them. Builds are numbered by a global counter. -/
inductive TPhase
  | start
  | building
  | storing (r : Nat)
  | done (r : Nat)
deriving DecidableEq, Repr

/-- Shared state for two threads racing on one path: the cache entry for that
path, how many builds ran, and each thread's control point. -/
structure RaceState where
  cache : Option Nat
  builds : Nat
  t1 : TPhase
  t2 : TPhase
deriving DecidableEq, Repr

def stepPhase (cache : Option Nat) (builds : Nat) :
    TPhase → Option Nat × Nat × TPhase
  | .start =>
    match cache with
    | some r => (cache, builds, .done r)
    | none => (cache, builds, .building)
  | .building => (cache, builds + 1, .storing builds)
  | .storing r => (some r, builds, .done r)
  | .done r => (cache, builds, .done r)

def stepThread (s : RaceState) (which : Bool) : RaceState :=
  if which then
    let r := stepPhase s.cache s.builds s.t2
    { cache := r.1, builds := r.2.1, t1 := s.t1, t2 := r.2.2 }
  else
    let r := stepPhase s.cache s.builds s.t1
    { cache := r.1, builds := r.2.1, t1 := r.2.2, t2 := s.t2 }

/-- Run an interleaving of the two threads from an empty cache. -/
def runSchedule (sched : List Bool) : RaceState :=
  sched.foldl stepThread
    { cache := none, builds := 0, t1 := .start, t2 := .start }

/-- C8 counterexample: `get_or_create_retriever` has no lock and no double
check — under the interleaving where both threads pass the membership check
before either stores, each performs its own index build: two builds for one
path, and the threads even end with different retriever instances. -/
theorem c8_cex_concurrent_first_access_double_build :
    (runSchedule [false, true, false, false, true, true]).builds = 2 ∧
    (runSchedule [false, true, false, false, true, true]).t1 = TPhase.done 0 ∧
    (runSchedule [false, true, false, false, true, true]).t2 = TPhase.done 1 :=
  ⟨rfl, rfl, rfl⟩

/-- C8 amended: sequentially the cache behaves as claimed — a present entry
is returned as-is with no build, and after any call a repeated call for the
same path hits the cache, builds nothing and returns the same retriever. The
at-most-one-build guarantee does not extend to concurrent first access: there
is no lock. -/
theorem c8_amended_sequential_never_rebuilds
    (build : String → Nat) (cache : List (String × Nat)) (path : String) :
    (∀ r, cacheLookup cache path = some r →
      getOrCreateRetriever build cache path = (r, cache, false)) ∧
    (∀ r c b, getOrCreateRetriever build cache path = (r, c, b) →
      getOrCreateRetriever build c path = (r, c, false)) := by
  constructor
  · intro r hr
    rw [getOrCreateRetriever, hr]
  · intro r c b h
    rw [getOrCreateRetriever] at h
    cases hl : cacheLookup cache path with
    | some r0 =>
      rw [hl] at h
      injection h with h1 h2
      injection h2 with h2 h3
      rw [getOrCreateRetriever, ← h2, hl, h1]
    | none =>
      rw [hl] at h
      injection h with h1 h2
      injection h2 with h2 h3
      rw [getOrCreateRetriever, ← h2]
      show (match cacheLookup ((path, build path) :: cache) path with
        | some r => (r, (path, build path) :: cache, false)
        | none => _) = _
      rw [show cacheLookup ((path, build path) :: cache) path
          = some (build path) by simp [cacheLookup]]
      rw [h1]

/-- Witness for the amended C8: a concrete hit returns the cached system
without building. -/
theorem c8_amended_witness :
    getOrCreateRetriever (fun _ => 99) [("a.pdf", 7)] "a.pdf"
      = (7, [("a.pdf", 7)], false) :=
  (c8_amended_sequential_never_rebuilds (fun _ => 99) [("a.pdf", 7)] "a.pdf").1
    7 rfl

/-! ### book_search_tool — input handling and response assembly (C10)

`JVal` models the Python values the tool can encounter as a query: strings,
`None` and numbers (the JSON payloads the agent passes). `ToolInput` is the
`Union[str, dict]` parameter. `jsonParse` is the `json.loads` oracle: the
key/value pairs of a parsed JSON object, or `none` whenever `json.loads` or
the subsequent attribute access would raise (malformed JSON, non-object
payload) — all of which the bare `except: pass` swallows. -/

inductive JVal
  | s (str : String)
  | null
  | num (n : Int)
deriving DecidableEq, Repr

/-- Python truthiness of such a value. -/
def jTruthy : JVal → Bool
  | .s str => !(str == "")
  | .null => false
  | .num n => !(n == 0)

/-- Python `str(v)`. -/
def jToString : JVal → String
  | .s str => str
  | .null => "None"
  | .num n => toString n

def lookupKV : List (String × JVal) → String → Option JVal
  | [], _ => none
  | (k, v) :: rest, key => if k == key then some v else lookupKV rest key

/-- `list(d.values())[0]` — raises IndexError on an empty dict. -/
def firstValue (kvs : List (String × JVal)) : Except PErr JVal :=
  match kvs with
  | [] => .error (.other "IndexError")
  | (_, v) :: _ => .ok v

/-- `d.get("query") or list(d.values())[0]`. -/
def dictExtract (kvs : List (String × JVal)) : Except PErr JVal :=
  match lookupKV kvs "query" with
  | some v => if jTruthy v then .ok v else firstValue kvs
  | none => firstValue kvs

/-- The string branch: if the stripped value starts with `"{"`, try JSON
parsing and extraction; any exception inside the `try` is swallowed and the
original string kept. -/
def strNormalize (jsonParse : String → Option (List (String × JVal)))
    (s : String) : JVal :=
  if pyStarts (pyStrip s) "\x7b" then
    match jsonParse s with
    | some kvs =>
      match dictExtract kvs with
      | .ok v => v
      | .error _ => .s s
    | none => .s s
  else .s s

inductive ToolInput
  | str (s : String)
  | dict (kvs : List (String × JVal))

/-- The `clean_query` computation of `book_search_tool` before the
truthiness check. Note the dict branch is not inside a `try`: an empty dict
raises. -/
def normalizeQuery (jsonParse : String → Option (List (String × JVal))) :
    ToolInput → Except PErr JVal
  | .dict kvs => dictExtract kvs
  | .str s => .ok (strNormalize jsonParse s)

def fixedQueryErrorMsg : String := "Lỗi: Không tìm thấy từ khóa tìm kiếm hợp lệ."

/-- A `DAUSACH` row as `_fetch_full_book_details` selects it (columns may be
NULL). -/
structure DetailRow where
  TENSACH : Option String
  NOIDUNG : Option String
  HINHANHPATH : Option String
  GIA : Option ℚ
deriving DecidableEq, Repr

def lookupDetail : List (String × DetailRow) → String → Option DetailRow
  | [], _ => none
  | (k, v) :: rest, key => if k == key then some v else lookupDetail rest key

/-- Python `a or b` on optional strings (empty string is falsy). -/
def pyOrStr (a b : Option String) : Option String :=
  match a with
  | some s => if s == "" then b else some s
  | none => b

/-- How the f-string prints an optional value. -/
def optStr : Option String → String
  | some s => s
  | none => "None"

/-- `details.get("GIA", "N/A")` as printed: `"N/A"` when the ISBN was not
hydrated, `"None"` for a NULL price. -/
def giaStr : Option DetailRow → String
  | none => "N/A"
  | some r =>
    match r.GIA with
    | none => "None"
    | some g => toString g

/-- One `context_parts` entry. -/
def formatPart (details : List (String × DetailRow)) (i : Nat) (doc : BDoc) :
    String :=
  let det := lookupDetail details doc.isbn
  let tensach := optStr (pyOrStr (det.bind fun r => r.TENSACH) doc.tensach)
  let noidung := optStr (pyOrStr (det.bind fun r => r.NOIDUNG) doc.noidung)
  let gia := giaStr det
  let n := i + 1
  let isbn := doc.isbn
  s!"--- Sách {n} (ISBN: {isbn}) ---\n" ++
    s!"Tên sách: {tensach}\n" ++ s!"Giá: {gia}\n" ++ s!"Nội dung: {noidung}"

/-- `book_search_tool`: normalise the input to a query value, short-circuit
falsy values with the fixed error message, otherwise strip, run the retrieval
chain, hydrate details and format. `chain` is the assembled retrieval chain,
`fetchDetails` the detail hydration (it catches its own DB errors and returns
an empty map, hence total). -/
def bookSearchTool
    (jsonParse : String → Option (List (String × JVal)))
    (chain : String → Except PErr (List BDoc))
    (fetchDetails : List String → List (String × DetailRow))
    (input : ToolInput) : Except PErr String :=
  match normalizeQuery jsonParse input with
  | .error e => .error e
  | .ok v =>
    if !(jTruthy v) then .ok fixedQueryErrorMsg
    else
      let q := pyStrip (jToString v)
      match chain q with
      | .error e => .error e
      | .ok finalDocs =>
        let fullDetails := fetchDetails (finalDocs.map fun d => d.isbn)
        let parts := finalDocs.enum.map fun p =>
          formatPart fullDetails p.1 p.2
        if parts.isEmpty then
          .ok "Không tìm thấy sách nào phù hợp với từ khóa."
        else
          let n := parts.length
          .ok (s!"Tìm thấy {n} sách phù hợp:\n\n" ++ joinSep "\n\n" parts)

/-- C10 counterexample: for the whitespace-only input `" "` the normalized
query is empty after stripping, yet the tool does not return the fixed error
message — the truthiness check runs before `strip()`, so the retrieval chain
IS invoked (here with a failing chain whose error surfaces as the tool's
result, proving the invocation). -/
theorem c10_cex_whitespace_invokes_chain :
    bookSearchTool (fun _ => none) (fun _ => Except.error (PErr.other "boom"))
        (fun _ => []) (ToolInput.str " ")
      = Except.error (PErr.other "boom") := rfl

/-- C10 amended: the truthiness check runs on the un-stripped normalized
value. Whenever input normalisation yields a falsy value (empty string, JSON
null, the number 0), the tool returns the fixed error message for every
retrieval chain and every details oracle — so neither is consulted. A
whitespace-only string, however, is truthy, passes the check, and the chain
is invoked with the stripped (empty) query. -/
theorem c10_amended_falsy_value_short_circuits
    (jsonParse : String → Option (List (String × JVal)))
    (chain : String → Except PErr (List BDoc))
    (fetchDetails : List String → List (String × DetailRow))
    (input : ToolInput) (v : JVal)
    (hnorm : normalizeQuery jsonParse input = Except.ok v)
    (hfalsy : jTruthy v = false) :
    bookSearchTool jsonParse chain fetchDetails input
      = Except.ok fixedQueryErrorMsg := by
  rw [bookSearchTool, hnorm]
  show (if !(jTruthy v) then Except.ok fixedQueryErrorMsg else _) = _
  rw [hfalsy]
  rfl

/-- Witness for the amended C10: the empty-string input short-circuits even
with a failing chain. -/
theorem c10_amended_witness :
    bookSearchTool (fun _ => none) (fun _ => Except.error (PErr.other "down"))
        (fun _ => []) (ToolInput.str "")
      = Except.ok fixedQueryErrorMsg :=
  c10_amended_falsy_value_short_circuits (fun _ => none)
    (fun _ => Except.error (PErr.other "down")) (fun _ => [])
    (ToolInput.str "") (JVal.s "") rfl rfl

end LibraryAssistant
